import Mathlib

/-!
Verification of the numerical engine behind Tippet's technique for measuring a
multiport device with a 2-port network analyzer, as used by the notebook
"Measuring a Mutiport Device with a 2-Port Network Analyzer".

All frequency samples are processed independently by identical batched array
operations, so networks are embedded at a single frequency sample: a network is
a scattering matrix together with a per-port reference impedance vector.
Floating-point complex arithmetic is embedded as exact arithmetic over an
arbitrary field, so "up to numerical precision" statements become exact
equalities.
-/

open Matrix

variable {K : Type} [Field K] [DecidableEq K]

/-- A multiport linear network at one frequency sample: scattering matrix `s`
and per-port reference impedance `z0`. -/
structure Net (K : Type) [Field K] (n : ℕ) where
  s : Matrix (Fin n) (Fin n) K
  z0 : Fin n → K

/-- Port count of a network. -/
def Net.nports {K : Type} [Field K] {n : ℕ} (_ : Net K n) : ℕ := n

/-- Executable matrix inverse over a field, via the adjugate. -/
def matInv {n : ℕ} (A : Matrix (Fin n) (Fin n) K) : Matrix (Fin n) (Fin n) K :=
  (A.det)⁻¹ • A.adjugate

/-- Modelled from the spec: the standard bilinear relation converting a
scattering matrix referenced to per-port impedances `z0` into the
impedance-parameter matrix (scikit-rf `s2z`, not under src/). -/
def to_z {n : ℕ} (S : Matrix (Fin n) (Fin n) K) (z0 : Fin n → K) :
    Matrix (Fin n) (Fin n) K :=
  matInv (1 - S) * (1 + S) * diagonal z0

/-- Modelled from the spec: the standard bilinear relation converting an
impedance-parameter matrix into the scattering matrix referenced to per-port
impedances `z0` (scikit-rf `z2s`, not under src/). -/
def to_s {n : ℕ} (Z : Matrix (Fin n) (Fin n) K) (z0 : Fin n → K) :
    Matrix (Fin n) (Fin n) K :=
  (Z - diagonal z0) * matInv (Z + diagonal z0)

/-- Modelled from the spec: renormalization replaces the reference impedances
of a network without changing the physical network, going through the
impedance-parameter form (scikit-rf `Network.renormalize`, not under src/). -/
def renormalize {n : ℕ} (N : Net K n) (znew : Fin n → K) : Net K n :=
  ⟨to_s (to_z N.s N.z0) znew, znew⟩

/-- Destination of a surviving-port index of a joined network: `p` ports of A
first (skipping the joined port of A and preserving relative order), then the
surviving ports of B. -/
def sumIdx (p q : ℕ) (r : Fin (p + q)) : Fin p ⊕ Fin q :=
  if h : (r : ℕ) < p then Sum.inl ⟨r, h⟩
  else Sum.inr ⟨(r : ℕ) - p, by have := r.isLt; omega⟩

/-- Original port (in A or in B) of a surviving port of the joined network:
the joined indices are deleted and the relative order of the rest is kept. -/
def portOrigin {p q : ℕ} (i : Fin (p + 1)) (j : Fin (q + 1)) (r : Fin (p + q)) :
    Fin (p + 1) ⊕ Fin (q + 1) :=
  match sumIdx p q r with
  | Sum.inl x => Sum.inl (i.succAbove x)
  | Sum.inr y => Sum.inr (j.succAbove y)

/-- Surviving reference impedances, copied from A and B in original order. -/
def connZ0 {p q : ℕ} (A : Net K (p + 1)) (i : Fin (p + 1))
    (B : Net K (q + 1)) (j : Fin (q + 1)) : Fin (p + q) → K :=
  fun r =>
    match portOrigin i j r with
    | Sum.inl x => A.z0 x
    | Sum.inr y => B.z0 y

/-- Reduced impedance matrix of the joined network: the voltage/current
continuity constraint at the joined port pair is solved and the joined port
variables are eliminated. -/
def connZmat {p q : ℕ} (A : Net K (p + 1)) (i : Fin (p + 1))
    (B : Net K (q + 1)) (j : Fin (q + 1)) :
    Matrix (Fin (p + q)) (Fin (p + q)) K :=
  Matrix.of fun r c =>
    (match portOrigin i j r, portOrigin i j c with
      | Sum.inl x, Sum.inl y => to_z A.s A.z0 x y
      | Sum.inr x, Sum.inr y => to_z B.s B.z0 x y
      | _, _ => 0) -
    (to_z A.s A.z0 i i + to_z B.s B.z0 j j)⁻¹ *
      (match portOrigin i j r with
        | Sum.inl x => to_z A.s A.z0 x i
        | Sum.inr y => -(to_z B.s B.z0 y j)) *
      (match portOrigin i j c with
        | Sum.inl x => to_z A.s A.z0 i x
        | Sum.inr y => -(to_z B.s B.z0 j y))

/-- Modelled from the spec: the Connector joins port `i` of network A with
port `j` of network B. Both networks are converted to impedance-parameter
form, the continuity constraint at the joined ports is eliminated, and the
reduced impedance matrix is converted back to scattering form referenced to
the surviving ports' impedances (scikit-rf `rf.connect`, not under src/). -/
def connect {p q : ℕ} (A : Net K (p + 1)) (i : Fin (p + 1))
    (B : Net K (q + 1)) (j : Fin (q + 1)) : Net K (p + q) :=
  ⟨to_s (connZmat A i B j) (connZ0 A i B j), connZ0 A i B j⟩

/-- Input impedance of a 1-port load: its impedance-parameter entry. -/
def loadZ (B : Net K 1) : K := to_z B.s B.z0 0 0

/-- One-port Schur complement: the impedance matrix after terminating port `i`
with a load of impedance `w`. -/
def schurOne {p : ℕ} (Z : Matrix (Fin (p + 1)) (Fin (p + 1)) K)
    (i : Fin (p + 1)) (w : K) : Matrix (Fin p) (Fin p) K :=
  Matrix.of fun r c =>
    Z (i.succAbove r) (i.succAbove c) -
      (Z i i + w)⁻¹ * Z (i.succAbove r) i * Z i (i.succAbove c)

/-- The device's scattering matrix referenced at the load impedances: the
matrix the composite accumulator reconstructs block by block. -/
def deviceAtLoads (dut : Net K 4) (loads : Fin 4 → Net K 1) :
    Matrix (Fin 4) (Fin 4) K :=
  to_s (to_z dut.s dut.z0) (fun k => loadZ (loads k))

/-- First termination of the notebook loop: connect the load of port `c` to
port `c` of the device, producing a 3-port. -/
def threePort (dut : Net K (3 + 1)) (loads : Fin 4 → Net K (0 + 1))
    (c : Fin 4) : Net K (3 + 0) :=
  connect dut c (loads c) 0

/-- Second termination of the notebook loop: connect the load of the original
port `c.succAbove e` (the port called `d`, found at position `e` of the
3-port) to port `e`, producing the measured 2-port. -/
def twoPort (dut : Net K (3 + 1)) (loads : Fin 4 → Net K (0 + 1))
    (c : Fin 4) (e : Fin 3) : Net K 2 :=
  connect (threePort dut loads c) e (loads (c.succAbove e)) 0

/-- The measurement pair enumeration of the notebook:
`list(combinations(arange(4), 2))`. -/
def pairList : List (Fin 4 × Fin 4) :=
  [(0, 1), (0, 2), (0, 3), (1, 2), (1, 3), (2, 3)]

/-- The complementary ports of the measured pair, in ascending order:
`ports[(ports != a) & (ports != b)]`. -/
def others (a b : Fin 4) : List (Fin 4) :=
  (List.finRange 4).filter (fun p => decide (p ≠ a ∧ p ≠ b))

/-- First complementary port `c`. -/
def cOf (a b : Fin 4) : Fin 4 := (others a b).headD 0

/-- Second complementary port `d`. -/
def dOf (a b : Fin 4) : Fin 4 := ((others a b).drop 1).headD 0

/-- Position of `d` on the 3-port after the first reduction:
`e = where(ports[ports != c] == d)[0][0]`. -/
def eOf (a b : Fin 4) : Fin 3 :=
  let idx := ((List.finRange 4).filter
    (fun p => decide (p ≠ cOf a b))).findIdx (fun p => decide (p = dOf a b))
  if h : idx < 3 then ⟨idx, h⟩ else 0

/-- Original device port answering to a surviving port of the measured
2-port, through the two successive index deletions. -/
def survivorOrigin (c : Fin 4) (e : Fin 3) : Fin 2 → Fin 4 :=
  fun u => c.succAbove (e.succAbove u)

/-- Raw (non-renormalized) 2-port sub-measurement of the pair `(a, b)`:
the device with both complementary ports terminated in their loads. -/
def rawPair (dut : Net K (3 + 1)) (loads : Fin 4 → Net K (0 + 1))
    (a b : Fin 4) : Net K 2 :=
  twoPort dut loads (cOf a b) (eOf a b)

/-- Renormalized 2-port sub-measurement of the pair `(a, b)`:
`two_port.renormalize(c_[z_loads[:,a], z_loads[:,b]])`. -/
def measurePair (dut : Net K (3 + 1)) (loads : Fin 4 → Net K (0 + 1))
    (a b : Fin 4) : Net K 2 :=
  renormalize (twoPort dut loads (cOf a b) (eOf a b))
    ![loadZ (loads a), loadZ (loads b)]

/-- One iteration of the composite-stuffing loop: write the 2×2 scattering
block of the sub-measurement at rows/columns `a`, `b` and copy its two
reference impedances into slots `a` and `b`. -/
def writeBlock (comp : Net K 4) (a b : Fin 4) (tp : Net K 2) : Net K 4 :=
  ⟨Matrix.of fun m n =>
      if m = a ∧ n = a then tp.s 0 0
      else if m = a ∧ n = b then tp.s 0 1
      else if m = b ∧ n = a then tp.s 1 0
      else if m = b ∧ n = b then tp.s 1 1
      else comp.s m n,
    fun k => if k = a then tp.z0 0 else if k = b then tp.z0 1 else comp.z0 k⟩

/-- The full composite-stuffing loop over all pairs, starting from the
initial composite `comp0`, writing the measurement assigned to each pair. -/
def stuffAll (comp0 : Net K 4) (meas : Fin 4 → Fin 4 → Net K 2) : Net K 4 :=
  pairList.foldl (fun comp ab => writeBlock comp ab.1 ab.2 (meas ab.1 ab.2)) comp0

/-- The initial composite: `wg.match(nports=4)`, a reflectionless (all-zero
scattering) 4-port at the medium impedance. -/
def matchNet (z0m : Fin 4 → K) : Net K 4 := ⟨0, z0m⟩

/-- The full Composer: measure every pair, renormalize to the load
impedances, stuff the composite, then renormalize the composite to the
system impedance. -/
def composer (dut : Net K 4) (loads : Fin 4 → Net K 1) (z0m : Fin 4 → K)
    (zsys : K) : Net K 4 :=
  renormalize (stuffAll (matchNet z0m) (measurePair dut loads)) (fun _ => zsys)

/-- A 1-port load with reflection coefficient `gamma` in a medium of
reference impedance `z0m`: `wg.load(gamma)`. -/
def mkLoad (gamma z0m : K) : Net K 1 := ⟨Matrix.of fun _ _ => gamma, fun _ => z0m⟩

/-- The load list built by the `tippits` simulation function:
`[wg.load(gamma) for k in ports]` — the comprehension ignores `k`. -/
def tippitsLoads (gamma z0m : K) : List (Net K 1) :=
  (List.finRange 4).map (fun _k => mkLoad gamma z0m)

/-- The `tippits` simulation function: runs the Composer on `dut` with the
loads of `tippitsLoads` and system impedance 50. -/
def tippits (dut : Net K 4) (z0m : K) (gamma : K) : Net K 4 :=
  composer dut (fun k => (tippitsLoads gamma z0m).getD k.val (mkLoad 0 1))
    (fun _ => z0m) 50

/-- Conditions making the two terminations and the renormalization of one
measured pair well defined (all interior conversions non-singular). -/
structure PairConds (dut : Net K 4) (loads : Fin 4 → Net K 1)
    (c : Fin 4) (e : Fin 3) : Prop where
  hpiv1 : to_z dut.s dut.z0 c c + loadZ (loads c) ≠ 0
  hrt1 : IsUnit (schurOne (to_z dut.s dut.z0) c (loadZ (loads c)) +
    diagonal (fun r => dut.z0 (c.succAbove r))).det
  hpiv2 : schurOne (to_z dut.s dut.z0) c (loadZ (loads c)) e e +
    loadZ (loads (c.succAbove e)) ≠ 0
  hrt2 : IsUnit (schurOne (schurOne (to_z dut.s dut.z0) c (loadZ (loads c)))
      e (loadZ (loads (c.succAbove e))) +
    diagonal (fun r => dut.z0 (c.succAbove (e.succAbove r)))).det

/-- Global well-definedness conditions for one Composer run: nonzero
impedances, non-singular conversions, and per-pair conditions. -/
structure ValidSetup (dut : Net K 4) (loads : Fin 4 → Net K 1) : Prop where
  hchar : (2 : K) ≠ 0
  hz0 : ∀ k, dut.z0 k ≠ 0
  hzl : ∀ k, loadZ (loads k) ≠ 0
  hM : IsUnit (to_z dut.s dut.z0 + diagonal (fun k => loadZ (loads k))).det
  hpair : ∀ a b : Fin 4, (a, b) ∈ pairList → PairConds dut loads (cOf a b) (eOf a b)

/-- The all-matched reference device used for concrete instances: a 4-port
with zero scattering matrix at unit reference impedance. -/
def dutW : Net ℚ 4 := ⟨0, fun _ => 1⟩

/-- Matched unit loads for concrete instances. -/
def loadsW : Fin 4 → Net ℚ 1 := fun _ => mkLoad 0 1

/-- Distinct partially reflective loads for concrete instances, answering to
the notebook's `.1`, `.2`, `.3`, `.5` reflection coefficients. -/
def loadsC : Fin 4 → Net ℚ 1 :=
  fun k => mkLoad (![1/10, 1/5, 3/10, 1/2] k) 1

/-- Position of port `k` inside the measured pair `(a, b)`. -/
def diagPos (k a : Fin 4) : Fin 2 := if a = k then 0 else 1

/-- The scattering cells written by the stuffing loop for the pair (a, b). -/
def writeCellsS (a b : Fin 4) : Finset (Fin 4 × Fin 4) :=
  {(a, a), (a, b), (b, a), (b, b)}

/-- The z0 slots written by the stuffing loop for the pair (a, b). -/
def writeCellsZ (a b : Fin 4) : Finset (Fin 4) := {a, b}

/-- The off-diagonal scattering cells written for the pair (a, b). -/
def offDiagCells (a b : Fin 4) : Finset (Fin 4 × Fin 4) := {(a, b), (b, a)}

/-- Concrete 2-port measurement values for the aliasing counterexample. -/
def tpW1 : Net ℚ 2 := ⟨Matrix.of fun _ _ => 5, fun _ => 1⟩

/-- Concrete 2-port measurement values for the aliasing counterexample. -/
def tpW2 : Net ℚ 2 := ⟨Matrix.of fun _ _ => 7, fun _ => 1⟩

/-- Modelled from the spec: the error kind raised by the Connector for domain
violations — mismatched frequency grids or a port index out of range —
distinct from ordinary invalid-input errors (scikit-rf raises its own error
class from `rf.connect`; the connector itself is not under src/). -/
inductive DomainError where
  | freqMismatch : DomainError
  | portOutOfRange : DomainError
deriving DecidableEq

/-- A frequency-sampled network for the checked interface: a port count, a
frequency grid, and one single-sample network per frequency point. -/
structure NetF (K : Type) [Field K] where
  p : ℕ
  freq : List ℚ
  body : List (Net K p)

/-- Port-range checked connection of two frequency-sampled networks: fails
with a `DomainError` when a designated port index is out of range, else
connects the networks at every frequency sample. -/
def connectP (A : NetF K) (i : ℕ) (B : NetF K) (j : ℕ) :
    Except DomainError (NetF K) :=
  match A, B with
  | ⟨pa + 1, fA, bA⟩, ⟨qb + 1, _, bB⟩ =>
    if hi : i < pa + 1 then
      if hj : j < qb + 1 then
        Except.ok ⟨pa + qb, fA, List.zipWith
          (fun na nb => connect na ⟨i, hi⟩ nb ⟨j, hj⟩) bA bB⟩
      else Except.error DomainError.portOutOfRange
    else Except.error DomainError.portOutOfRange
  | _, _ => Except.error DomainError.portOutOfRange

/-- Modelled from the spec: the checked Connector. It fails with a
`DomainError` when the frequency grids of the two operands differ or when a
designated port index is out of range; otherwise it connects the two
networks at every frequency sample. -/
def connectE (A : NetF K) (i : ℕ) (B : NetF K) (j : ℕ) :
    Except DomainError (NetF K) :=
  if A.freq ≠ B.freq then Except.error DomainError.freqMismatch
  else connectP A i B j

/-- The two checked terminations of one measured pair; the first failure is
returned immediately. -/
def measurePairE (dut : NetF K) (loadsF : Fin 4 → NetF K) (a b : Fin 4) :
    Except DomainError (NetF K) := do
  let th ← connectE dut (cOf a b).val (loadsF (cOf a b)) 0
  let tw ← connectE th (eOf a b).val (loadsF (dOf a b)) 0
  pure tw

/-- Run a fallible step over a list, returning the collected results, or the
first error with nothing partial. -/
def collectE {α ε β : Type} (g : α → Except ε β) : List α → Except ε (List β)
  | [] => Except.ok []
  | a :: l =>
    match g a with
    | Except.error e => Except.error e
    | Except.ok b =>
      match collectE g l with
      | Except.error e => Except.error e
      | Except.ok rest => Except.ok (b :: rest)

/-- The checked Composer: all six sub-measurements, fail-fast, no partial
composite on failure. -/
def composerE (dut : NetF K) (loadsF : Fin 4 → NetF K) :
    Except DomainError (List (NetF K)) :=
  collectE (fun ab => measurePairE dut loadsF ab.1 ab.2) pairList

/-- A concrete zero-port frequency-sampled network (its only port index is
out of range). -/
def dutE : NetF ℚ := ⟨0, [], []⟩

/-- Concrete one-port loads on the same (empty) frequency grid. -/
def loadsE : Fin 4 → NetF ℚ := fun _ => ⟨1, [], []⟩

/-- A concrete network used for the frequency-mismatch instance. -/
def mismA : NetF ℚ := ⟨0, [], []⟩

/-- A concrete network with a different frequency grid than `mismA`. -/
def mismB : NetF ℚ := ⟨0, [7], []⟩

lemma matInv_eq {n : ℕ} (A : Matrix (Fin n) (Fin n) K) : matInv A = A⁻¹ := by
  rw [matInv, Matrix.inv_def, Ring.inverse_eq_inv]

lemma to_z_inv_form {n : ℕ} (S : Matrix (Fin n) (Fin n) K) (z0 : Fin n → K) :
    to_z S z0 = (1 - S)⁻¹ * (1 + S) * diagonal z0 := by
  rw [to_z, matInv_eq]

lemma to_s_inv_form {n : ℕ} (Z : Matrix (Fin n) (Fin n) K) (z0 : Fin n → K) :
    to_s Z z0 = (Z - diagonal z0) * (Z + diagonal z0)⁻¹ := by
  rw [to_s, matInv_eq]

lemma diagonal_isUnit_det {n : ℕ} (z0 : Fin n → K) (hz : ∀ k, z0 k ≠ 0) :
    IsUnit (diagonal z0).det := by
  rw [det_diagonal]
  exact isUnit_iff_ne_zero.2 (Finset.prod_ne_zero_iff.2 fun k _ => hz k)

lemma mul_inv_comm_of_comm {n : ℕ} {A B : Matrix (Fin n) (Fin n) K}
    (hB : IsUnit B.det) (h : A * B = B * A) : A * B⁻¹ = B⁻¹ * A := by
  calc A * B⁻¹ = B⁻¹ * B * (A * B⁻¹) := by
        rw [Matrix.nonsing_inv_mul _ hB, one_mul]
    _ = B⁻¹ * (B * A) * B⁻¹ := by noncomm_ring
    _ = B⁻¹ * (A * B) * B⁻¹ := by rw [h]
    _ = B⁻¹ * A * (B * B⁻¹) := by noncomm_ring
    _ = B⁻¹ * A := by rw [Matrix.mul_nonsing_inv _ hB, mul_one]

/-- The round trip s → z → s is the identity when `1 - S` is invertible and
all reference impedances are nonzero. -/
lemma to_s_to_z (hchar : (2 : K) ≠ 0) {n : ℕ} (S : Matrix (Fin n) (Fin n) K)
    (z0 : Fin n → K) (hS : IsUnit (1 - S).det) (hz : ∀ k, z0 k ≠ 0) :
    to_s (to_z S z0) z0 = S := by
  set D := (diagonal z0 : Matrix (Fin n) (Fin n) K) with hD
  have hDdet : IsUnit D.det := diagonal_isUnit_det z0 hz
  have hsub : to_z S z0 - D = (1 - S)⁻¹ * ((2 : K) • S) * D := by
    rw [to_z_inv_form, ← hD]
    have h2 : (1 + S) - (1 - S) = (2 : K) • S := by
      rw [two_smul]; abel
    calc (1 - S)⁻¹ * (1 + S) * D - D
        = (1 - S)⁻¹ * (1 + S) * D - (1 - S)⁻¹ * (1 - S) * D := by
          rw [Matrix.nonsing_inv_mul _ hS, one_mul]
      _ = (1 - S)⁻¹ * ((1 + S) - (1 - S)) * D := by
          rw [← Matrix.sub_mul, ← Matrix.mul_sub]
      _ = (1 - S)⁻¹ * ((2 : K) • S) * D := by rw [h2]
  have hadd : to_z S z0 + D = (1 - S)⁻¹ * ((2 : K) • 1) * D := by
    rw [to_z_inv_form, ← hD]
    have h2 : (1 + S) + (1 - S) = (2 : K) • 1 := by
      rw [two_smul]; abel
    calc (1 - S)⁻¹ * (1 + S) * D + D
        = (1 - S)⁻¹ * (1 + S) * D + (1 - S)⁻¹ * (1 - S) * D := by
          rw [Matrix.nonsing_inv_mul _ hS, one_mul]
      _ = (1 - S)⁻¹ * ((1 + S) + (1 - S)) * D := by
          rw [← Matrix.add_mul, ← Matrix.mul_add]
      _ = (1 - S)⁻¹ * ((2 : K) • 1) * D := by rw [h2]
  have hinv : (to_z S z0 + D)⁻¹ = (2 : K)⁻¹ • (D⁻¹ * (1 - S)) := by
    apply Matrix.inv_eq_right_inv
    rw [hadd]
    have expand : (1 - S)⁻¹ * ((2 : K) • 1) * D * ((2 : K)⁻¹ • (D⁻¹ * (1 - S)))
        = ((2 : K)⁻¹ * (2 : K)) • ((1 - S)⁻¹ * (D * D⁻¹) * (1 - S)) := by
      simp only [Matrix.smul_mul, Matrix.mul_smul, smul_smul, one_mul, mul_one]
      congr 1
      simp only [mul_assoc]
    rw [expand, inv_mul_cancel₀ hchar, one_smul, Matrix.mul_nonsing_inv _ hDdet,
      mul_one, Matrix.nonsing_inv_mul _ hS]
  rw [to_s_inv_form, ← hD, hsub, hinv]
  have hcomm : S * (1 - S)⁻¹ = (1 - S)⁻¹ * S :=
    mul_inv_comm_of_comm hS (by noncomm_ring)
  have expand : (1 - S)⁻¹ * ((2 : K) • S) * D * ((2 : K)⁻¹ • (D⁻¹ * (1 - S)))
      = ((2 : K)⁻¹ * (2 : K)) • ((1 - S)⁻¹ * S * (D * D⁻¹) * (1 - S)) := by
    simp only [Matrix.smul_mul, Matrix.mul_smul, smul_smul, one_mul, mul_one]
    congr 1
    simp only [mul_assoc]
  rw [expand, inv_mul_cancel₀ hchar, one_smul, Matrix.mul_nonsing_inv _ hDdet,
    mul_one]
  calc (1 - S)⁻¹ * S * (1 - S) = S * (1 - S)⁻¹ * (1 - S) := by rw [hcomm]
    _ = S * ((1 - S)⁻¹ * (1 - S)) := by rw [Matrix.mul_assoc]
    _ = S := by rw [Matrix.nonsing_inv_mul _ hS, mul_one]

/-- Key matrix identity: `A * (A + B)⁻¹ * B = B * (A + B)⁻¹ * A` when `A + B`
is invertible. -/
lemma mul_inv_add_mul_comm {n : ℕ} (A B : Matrix (Fin n) (Fin n) K)
    (h : IsUnit (A + B).det) :
    A * (A + B)⁻¹ * B = B * (A + B)⁻¹ * A := by
  have e1 : A * (A + B)⁻¹ = 1 - B * (A + B)⁻¹ := by
    calc A * (A + B)⁻¹ = ((A + B) - B) * (A + B)⁻¹ := by noncomm_ring
      _ = (A + B) * (A + B)⁻¹ - B * (A + B)⁻¹ := by rw [Matrix.sub_mul]
      _ = 1 - B * (A + B)⁻¹ := by rw [Matrix.mul_nonsing_inv _ h]
  have e2 : (A + B)⁻¹ * A = 1 - (A + B)⁻¹ * B := by
    calc (A + B)⁻¹ * A = (A + B)⁻¹ * ((A + B) - B) := by noncomm_ring
      _ = (A + B)⁻¹ * (A + B) - (A + B)⁻¹ * B := by rw [Matrix.mul_sub]
      _ = 1 - (A + B)⁻¹ * B := by rw [Matrix.nonsing_inv_mul _ h]
  calc A * (A + B)⁻¹ * B = (1 - B * (A + B)⁻¹) * B := by rw [e1]
    _ = B - B * (A + B)⁻¹ * B := by noncomm_ring
    _ = B * (1 - (A + B)⁻¹ * B) := by noncomm_ring
    _ = B * ((A + B)⁻¹ * A) := by rw [e2]
    _ = B * (A + B)⁻¹ * A := by rw [Matrix.mul_assoc]

/-- The round trip z → s → z is the identity when `Z + diagonal z0` is
invertible and all reference impedances are nonzero. -/
lemma to_z_to_s (hchar : (2 : K) ≠ 0) {n : ℕ} (Z : Matrix (Fin n) (Fin n) K)
    (z0 : Fin n → K) (hZ : IsUnit (Z + diagonal z0).det) (hz : ∀ k, z0 k ≠ 0) :
    to_z (to_s Z z0) z0 = Z := by
  set D := (diagonal z0 : Matrix (Fin n) (Fin n) K) with hD
  have hDdet : IsUnit D.det := diagonal_isUnit_det z0 hz
  have hsub : 1 - to_s Z z0 = ((2 : K) • D) * (Z + D)⁻¹ := by
    rw [to_s_inv_form, ← hD]
    have h2 : (Z + D) - (Z - D) = (2 : K) • D := by rw [two_smul]; abel
    calc 1 - (Z - D) * (Z + D)⁻¹
        = (Z + D) * (Z + D)⁻¹ - (Z - D) * (Z + D)⁻¹ := by
          rw [Matrix.mul_nonsing_inv _ hZ]
      _ = ((Z + D) - (Z - D)) * (Z + D)⁻¹ := by rw [← Matrix.sub_mul]
      _ = ((2 : K) • D) * (Z + D)⁻¹ := by rw [h2]
  have hadd : 1 + to_s Z z0 = ((2 : K) • Z) * (Z + D)⁻¹ := by
    rw [to_s_inv_form, ← hD]
    have h2 : (Z + D) + (Z - D) = (2 : K) • Z := by rw [two_smul]; abel
    calc 1 + (Z - D) * (Z + D)⁻¹
        = (Z + D) * (Z + D)⁻¹ + (Z - D) * (Z + D)⁻¹ := by
          rw [Matrix.mul_nonsing_inv _ hZ]
      _ = ((Z + D) + (Z - D)) * (Z + D)⁻¹ := by rw [← Matrix.add_mul]
      _ = ((2 : K) • Z) * (Z + D)⁻¹ := by rw [h2]
  have hinv : (1 - to_s Z z0)⁻¹ = (2 : K)⁻¹ • ((Z + D) * D⁻¹) := by
    apply Matrix.inv_eq_right_inv
    rw [hsub]
    have expand : ((2 : K) • D) * (Z + D)⁻¹ * ((2 : K)⁻¹ • ((Z + D) * D⁻¹))
        = ((2 : K)⁻¹ * (2 : K)) • (D * ((Z + D)⁻¹ * (Z + D)) * D⁻¹) := by
      simp only [Matrix.smul_mul, Matrix.mul_smul, smul_smul]
      congr 1
      simp only [mul_assoc]
    rw [expand, inv_mul_cancel₀ hchar, one_smul, Matrix.nonsing_inv_mul _ hZ,
      mul_one, Matrix.mul_nonsing_inv _ hDdet]
  rw [to_z_inv_form, ← hD, hinv, hadd]
  have expand : (2 : K)⁻¹ • ((Z + D) * D⁻¹) * (((2 : K) • Z) * (Z + D)⁻¹) * D
      = ((2 : K) * (2 : K)⁻¹) • ((Z + D) * D⁻¹ * (Z * (Z + D)⁻¹ * D)) := by
    simp only [Matrix.smul_mul, Matrix.mul_smul, smul_smul]
    congr 1
    simp only [mul_assoc]
  rw [expand, mul_inv_cancel₀ hchar, one_smul, mul_inv_add_mul_comm _ _ hZ]
  calc (Z + D) * D⁻¹ * (D * (Z + D)⁻¹ * Z)
      = (Z + D) * (D⁻¹ * D) * ((Z + D)⁻¹ * Z) := by noncomm_ring
    _ = (Z + D) * (Z + D)⁻¹ * Z := by
        rw [Matrix.nonsing_inv_mul _ hDdet, mul_one, Matrix.mul_assoc,
          ← Matrix.mul_assoc ((Z + D)) _ _]
    _ = Z := by rw [Matrix.mul_nonsing_inv _ hZ, one_mul]

/-- The scattering matrix in resolvent form:
`to_s Z z0 = 1 - 2 D (Z + D)⁻¹`. -/
lemma to_s_resolvent {n : ℕ} (Z : Matrix (Fin n) (Fin n) K) (z0 : Fin n → K)
    (hZ : IsUnit (Z + diagonal z0).det) :
    to_s Z z0 = 1 - ((2 : K) • diagonal z0) * (Z + diagonal z0)⁻¹ := by
  set D := (diagonal z0 : Matrix (Fin n) (Fin n) K) with hD
  rw [to_s_inv_form, ← hD]
  have h2 : Z - D = (Z + D) - (2 : K) • D := by rw [two_smul]; abel
  rw [h2, Matrix.sub_mul, Matrix.mul_nonsing_inv _ hZ]

lemma sumIdx_left {p : ℕ} (r : Fin (p + 0)) : sumIdx p 0 r = Sum.inl r := by
  have h : (r : ℕ) < p := by have := r.isLt; omega
  rw [sumIdx, dif_pos h]
  rfl

lemma portOrigin_left {p : ℕ} (i : Fin (p + 1)) (j : Fin 1) (r : Fin (p + 0)) :
    portOrigin i j r = Sum.inl (i.succAbove r) := by
  rw [portOrigin, sumIdx_left]

/-- Connecting a 1-port load to port `i` computes the one-port Schur
complement of the impedance matrix and converts back, with the surviving
impedances copied from A. -/
lemma connZmat_load {p : ℕ} (A : Net K (p + 1)) (i : Fin (p + 1))
    (B : Net K (0 + 1)) :
    connZmat A i B 0 = schurOne (to_z A.s A.z0) i (loadZ B) := by
  ext r c
  rw [connZmat, schurOne]
  simp only [Matrix.of_apply, portOrigin_left]
  rfl

lemma connZ0_load {p : ℕ} (A : Net K (p + 1)) (i : Fin (p + 1))
    (B : Net K (0 + 1)) :
    connZ0 A i B 0 = fun r => A.z0 (i.succAbove r) := by
  funext r
  rw [connZ0, portOrigin_left]

lemma connect_load {p : ℕ} (A : Net K (p + 1)) (i : Fin (p + 1))
    (B : Net K (0 + 1)) :
    connect A i B 0 =
      ⟨to_s (schurOne (to_z A.s A.z0) i (loadZ B)) (fun r => A.z0 (i.succAbove r)),
        fun r => A.z0 (i.succAbove r)⟩ := by
  rw [connect, connZmat_load, connZ0_load]
  rfl

/-- The one-port Schur complement (with the load folded into the diagonal) is
a right inverse of the corresponding principal submatrix of `M⁻¹`. -/
lemma schur_right_inv {p : ℕ} (M : Matrix (Fin (p + 1)) (Fin (p + 1)) K)
    (i : Fin (p + 1)) (hM : IsUnit M.det) (hpiv : M i i ≠ 0) :
    schurOne M i 0 * (M⁻¹).submatrix i.succAbove i.succAbove = 1 := by
  have hMN : ∀ a b, (∑ k, M a k * M⁻¹ k b) = if a = b then (1 : K) else 0 := by
    intro a b
    have h1 := Matrix.mul_nonsing_inv M hM
    have h2 := congrFun (congrFun h1 a) b
    rwa [Matrix.mul_apply, Matrix.one_apply] at h2
  ext r c
  rw [Matrix.mul_apply, Matrix.one_apply]
  have hA : (∑ x, M (i.succAbove r) (i.succAbove x) *
        M⁻¹ (i.succAbove x) (i.succAbove c))
      = (if r = c then (1 : K) else 0) -
          M (i.succAbove r) i * M⁻¹ i (i.succAbove c) := by
    have hs := hMN (i.succAbove r) (i.succAbove c)
    rw [Fin.sum_univ_succAbove _ i] at hs
    have heq : (if i.succAbove r = i.succAbove c then (1 : K) else 0)
        = if r = c then (1 : K) else 0 := by
      by_cases h : r = c
      · rw [if_pos h, if_pos (by rw [h])]
      · rw [if_neg h, if_neg (fun hc => h (Fin.succAbove_right_injective hc))]
    rw [heq] at hs
    linear_combination hs
  have hB : (∑ x, M i (i.succAbove x) * M⁻¹ (i.succAbove x) (i.succAbove c))
      = -(M i i * M⁻¹ i (i.succAbove c)) := by
    have hs := hMN i (i.succAbove c)
    rw [Fin.sum_univ_succAbove _ i, if_neg (Fin.ne_succAbove i c)] at hs
    linear_combination hs
  have hexp : (∑ x, schurOne M i 0 r x *
        (M⁻¹).submatrix i.succAbove i.succAbove x c)
      = (∑ x, M (i.succAbove r) (i.succAbove x) *
          M⁻¹ (i.succAbove x) (i.succAbove c)) -
        (M i i + 0)⁻¹ * M (i.succAbove r) i *
          (∑ x, M i (i.succAbove x) * M⁻¹ (i.succAbove x) (i.succAbove c)) := by
    rw [Finset.mul_sum, ← Finset.sum_sub_distrib]
    apply Finset.sum_congr rfl
    intro x _
    simp only [schurOne, Matrix.of_apply, Matrix.submatrix_apply]
    ring
  rw [hexp, hA, hB, add_zero]
  have hcancel : (M i i)⁻¹ * M i i = 1 := inv_mul_cancel₀ hpiv
  by_cases h : r = c
  · rw [if_pos h]
    linear_combination (M (i.succAbove r) i * M⁻¹ i (i.succAbove c)) * hcancel
  · rw [if_neg h]
    linear_combination (M (i.succAbove r) i * M⁻¹ i (i.succAbove c)) * hcancel

lemma schur_inv_eq {p : ℕ} (M : Matrix (Fin (p + 1)) (Fin (p + 1)) K)
    (i : Fin (p + 1)) (hM : IsUnit M.det) (hpiv : M i i ≠ 0) :
    (schurOne M i 0)⁻¹ = (M⁻¹).submatrix i.succAbove i.succAbove :=
  Matrix.inv_eq_right_inv (schur_right_inv M i hM hpiv)

lemma schur_isUnit_det {p : ℕ} (M : Matrix (Fin (p + 1)) (Fin (p + 1)) K)
    (i : Fin (p + 1)) (hM : IsUnit M.det) (hpiv : M i i ≠ 0) :
    IsUnit (schurOne M i 0).det :=
  Matrix.isUnit_det_of_right_inverse (schur_right_inv M i hM hpiv)

/-- Folding a diagonal shift into the matrix before the one-port Schur
complement: the shift at the pivot becomes the load, the rest shifts the
survivors. -/
lemma schurOne_add_diagonal {p : ℕ} (Z : Matrix (Fin (p + 1)) (Fin (p + 1)) K)
    (i : Fin (p + 1)) (d : Fin (p + 1) → K) :
    schurOne (Z + diagonal d) i 0 =
      schurOne Z i (d i) + diagonal (fun r => d (i.succAbove r)) := by
  ext r c
  simp only [schurOne, Matrix.of_apply, Matrix.add_apply, Matrix.diagonal_apply]
  have hri : i.succAbove r ≠ i := Fin.succAbove_ne i r
  have hic : i ≠ i.succAbove c := Fin.ne_succAbove i c
  rw [if_neg hri, if_neg hic]
  have heq : (if i.succAbove r = i.succAbove c then d (i.succAbove r) else 0)
      = if r = c then d (i.succAbove r) else 0 := by
    by_cases h : r = c
    · rw [if_pos h, if_pos (by rw [h])]
    · rw [if_neg h, if_neg (fun hc => h (Fin.succAbove_right_injective hc))]
  rw [heq]
  simp only [eq_self_iff_true, if_true]
  ring

lemma renormalize_s {n : ℕ} (N : Net K n) (znew : Fin n → K) :
    (renormalize N znew).s = to_s (to_z N.s N.z0) znew := rfl

lemma renormalize_z0 {n : ℕ} (N : Net K n) (znew : Fin n → K) :
    (renormalize N znew).z0 = znew := rfl

/-- Key lemma of Tippet's technique: terminating the two complementary ports
of a 4-port with their loads (port `c` first, then the survivor at position
`e`), and renormalizing the resulting 2-port to the load impedances of the
two measured ports, gives exactly the corresponding 2×2 block of the device's
scattering matrix referenced at the load impedances. -/
lemma measure_renorm_eq (dut : Net K (3 + 1)) (loads : Fin 4 → Net K (0 + 1))
    (c : Fin 4) (e : Fin 3) (hchar : (2 : K) ≠ 0)
    (hz0 : ∀ k, dut.z0 k ≠ 0) (hzl : ∀ k, loadZ (loads k) ≠ 0)
    (hM : IsUnit (to_z dut.s dut.z0 +
      diagonal (fun k => loadZ (loads k))).det)
    (hpiv1 : to_z dut.s dut.z0 c c + loadZ (loads c) ≠ 0)
    (hrt1 : IsUnit (schurOne (to_z dut.s dut.z0) c (loadZ (loads c)) +
      diagonal (fun r => dut.z0 (c.succAbove r))).det)
    (hpiv2 : schurOne (to_z dut.s dut.z0) c (loadZ (loads c)) e e +
      loadZ (loads (c.succAbove e)) ≠ 0)
    (hrt2 : IsUnit (schurOne (schurOne (to_z dut.s dut.z0) c (loadZ (loads c)))
        e (loadZ (loads (c.succAbove e))) +
      diagonal (fun r => dut.z0 (c.succAbove (e.succAbove r)))).det)
    (r t : Fin 2) :
    (renormalize (twoPort dut loads c e)
        (fun u => loadZ (loads (c.succAbove (e.succAbove u))))).s r t
      = deviceAtLoads dut loads (c.succAbove (e.succAbove r))
          (c.succAbove (e.succAbove t)) := by
  set ZA := to_z dut.s dut.z0 with hZA
  set zl : Fin 4 → K := fun k => loadZ (loads k) with hzldef
  set M : Matrix (Fin 4) (Fin 4) K := ZA + diagonal zl with hMdef
  set Z1 := schurOne ZA c (zl c) with hZ1
  set Z2 := schurOne Z1 e (zl (c.succAbove e)) with hZ2
  -- the two sequential connects in impedance form
  have hthree : threePort dut loads c =
      ⟨to_s Z1 (fun u => dut.z0 (c.succAbove u)),
        fun u => dut.z0 (c.succAbove u)⟩ :=
    connect_load dut c (loads c)
  have hz01 : ∀ u, dut.z0 (c.succAbove u) ≠ 0 := fun u => hz0 _
  have htwo_inner : to_z (to_s Z1 (fun u => dut.z0 (c.succAbove u)))
      (fun u => dut.z0 (c.succAbove u)) = Z1 :=
    to_z_to_s hchar Z1 _ hrt1 hz01
  have htwo : twoPort dut loads c e =
      ⟨to_s Z2 (fun u => dut.z0 (c.succAbove (e.succAbove u))),
        fun u => dut.z0 (c.succAbove (e.succAbove u))⟩ := by
    have hstep : twoPort dut loads c e =
        ⟨to_s (schurOne (to_z (threePort dut loads c).s
            (threePort dut loads c).z0) e (loadZ (loads (c.succAbove e))))
          (fun u => (threePort dut loads c).z0 (e.succAbove u)),
          fun u => (threePort dut loads c).z0 (e.succAbove u)⟩ :=
      connect_load (threePort dut loads c) e (loads (c.succAbove e))
    rw [hstep, hthree]
    congr 1
    rw [htwo_inner]
  have hz02 : ∀ u, dut.z0 (c.succAbove (e.succAbove u)) ≠ 0 := fun u => hz0 _
  have hrenorm_inner :
      to_z (to_s Z2 (fun u => dut.z0 (c.succAbove (e.succAbove u))))
        (fun u => dut.z0 (c.succAbove (e.succAbove u))) = Z2 :=
    to_z_to_s hchar Z2 _ hrt2 hz02
  -- the Schur complement chain for M
  have hpivM : M c c ≠ 0 := by
    rw [hMdef]
    simpa [Matrix.add_apply, Matrix.diagonal_apply_eq] using hpiv1
  have hSc1 : schurOne M c 0 = Z1 + diagonal (fun u => zl (c.succAbove u)) := by
    rw [hMdef, schurOne_add_diagonal]
  have hSc1inv : (Z1 + diagonal (fun u => zl (c.succAbove u)))⁻¹ =
      (M⁻¹).submatrix c.succAbove c.succAbove := by
    rw [← hSc1, schur_inv_eq M c hM hpivM]
  have hSc1unit : IsUnit (Z1 + diagonal (fun u => zl (c.succAbove u))).det := by
    rw [← hSc1]
    exact schur_isUnit_det M c hM hpivM
  have hpivSc1 : (Z1 + diagonal (fun u => zl (c.succAbove u))) e e ≠ 0 := by
    simpa [Matrix.add_apply, Matrix.diagonal_apply_eq] using hpiv2
  have hSc2 : schurOne (Z1 + diagonal (fun u => zl (c.succAbove u))) e 0 =
      Z2 + diagonal (fun u => zl (c.succAbove (e.succAbove u))) := by
    rw [schurOne_add_diagonal]
  have hSc2inv : (Z2 + diagonal (fun u => zl (c.succAbove (e.succAbove u))))⁻¹ =
      (M⁻¹).submatrix (fun u => c.succAbove (e.succAbove u))
        (fun u => c.succAbove (e.succAbove u)) := by
    rw [← hSc2, schur_inv_eq _ e hSc1unit hpivSc1, hSc1inv,
      Matrix.submatrix_submatrix]
    rfl
  have hSc2unit : IsUnit
      (Z2 + diagonal (fun u => zl (c.succAbove (e.succAbove u)))).det := by
    rw [← hSc2]
    exact schur_isUnit_det _ e hSc1unit hpivSc1
  -- assemble
  rw [renormalize_s, htwo]
  show (to_s (to_z (to_s Z2 (fun u => dut.z0 (c.succAbove (e.succAbove u))))
      (fun u => dut.z0 (c.succAbove (e.succAbove u))))
      (fun u => zl (c.succAbove (e.succAbove u)))) r t = _
  rw [hrenorm_inner, to_s_resolvent _ _ hSc2unit, hSc2inv]
  have hMunit : IsUnit (ZA + diagonal zl).det := by rw [← hMdef]; exact hM
  rw [deviceAtLoads, ← hZA, ← hzldef, to_s_resolvent _ _ hMunit, ← hMdef]
  have hinj : Function.Injective (fun u : Fin 2 => c.succAbove (e.succAbove u)) :=
    fun u v huv => Fin.succAbove_right_injective
      (Fin.succAbove_right_injective huv)
  simp only [Matrix.sub_apply, Matrix.one_apply, Matrix.smul_mul,
    Matrix.smul_apply, Matrix.diagonal_mul, Matrix.submatrix_apply,
    Matrix.of_apply, smul_eq_mul]
  have hone : (if r = t then (1 : K) else 0) =
      if c.succAbove (e.succAbove r) = c.succAbove (e.succAbove t)
        then (1 : K) else 0 := by
    by_cases h : r = t
    · rw [if_pos h, if_pos (by rw [h])]
    · rw [if_neg h, if_neg (fun hc => h (hinj hc))]
  rw [hone]

lemma pair_origin_eval : ∀ x : Fin 4 × Fin 4, x ∈ pairList →
    ∀ u : Fin 2, survivorOrigin (cOf x.1 x.2) (eOf x.1 x.2) u = ![x.1, x.2] u := by
  decide

/-- The renormalized sub-measurement of a measured pair equals the 2×2 block
of the device's scattering matrix referenced at the load impedances. -/
lemma measurePair_s (dut : Net K (3 + 1)) (loads : Fin 4 → Net K (0 + 1))
    (V : ValidSetup dut loads) (a b : Fin 4) (hmem : (a, b) ∈ pairList)
    (r t : Fin 2) :
    (measurePair dut loads a b).s r t
      = deviceAtLoads dut loads (![a, b] r) (![a, b] t) := by
  have hψ : ∀ u : Fin 2,
      (cOf a b).succAbove ((eOf a b).succAbove u) = ![a, b] u :=
    fun u => pair_origin_eval (a, b) hmem u
  have hz : (![loadZ (loads a), loadZ (loads b)] : Fin 2 → K)
      = fun u => loadZ (loads ((cOf a b).succAbove ((eOf a b).succAbove u))) := by
    funext u
    rw [hψ u]
    fin_cases u <;> rfl
  have hP := V.hpair a b hmem
  rw [measurePair, hz,
    measure_renorm_eq dut loads (cOf a b) (eOf a b) V.hchar V.hz0 V.hzl V.hM
      hP.hpiv1 hP.hrt1 hP.hpiv2 hP.hrt2 r t, hψ r, hψ t]

/-- After all six pairs are stuffed, the composite scattering matrix is
exactly the device's scattering matrix referenced at the load impedances. -/
lemma composite_s (dut : Net K (3 + 1)) (loads : Fin 4 → Net K (0 + 1))
    (z0m : Fin 4 → K) (V : ValidSetup dut loads) :
    (stuffAll (matchNet z0m) (measurePair dut loads)).s
      = deviceAtLoads dut loads := by
  ext m n
  fin_cases m <;> fin_cases n
  · exact measurePair_s dut loads V 0 3 (by decide) 0 0
  · exact measurePair_s dut loads V 0 1 (by decide) 0 1
  · exact measurePair_s dut loads V 0 2 (by decide) 0 1
  · exact measurePair_s dut loads V 0 3 (by decide) 0 1
  · exact measurePair_s dut loads V 0 1 (by decide) 1 0
  · exact measurePair_s dut loads V 1 3 (by decide) 0 0
  · exact measurePair_s dut loads V 1 2 (by decide) 0 1
  · exact measurePair_s dut loads V 1 3 (by decide) 0 1
  · exact measurePair_s dut loads V 0 2 (by decide) 1 0
  · exact measurePair_s dut loads V 1 2 (by decide) 1 0
  · exact measurePair_s dut loads V 2 3 (by decide) 0 0
  · exact measurePair_s dut loads V 2 3 (by decide) 0 1
  · exact measurePair_s dut loads V 0 3 (by decide) 1 0
  · exact measurePair_s dut loads V 1 3 (by decide) 1 0
  · exact measurePair_s dut loads V 2 3 (by decide) 1 0
  · exact measurePair_s dut loads V 2 3 (by decide) 1 1

/-- After all six pairs are stuffed, the composite reference impedances are
the load impedances. -/
lemma composite_z0 (dut : Net K (3 + 1)) (loads : Fin 4 → Net K (0 + 1))
    (z0m : Fin 4 → K) :
    (stuffAll (matchNet z0m) (measurePair dut loads)).z0
      = fun k => loadZ (loads k) := by
  funext k
  fin_cases k <;> rfl

lemma to_z_zero {n : ℕ} (z0 : Fin n → K) :
    to_z (0 : Matrix (Fin n) (Fin n) K) z0 = diagonal z0 := by
  rw [to_z_inv_form, sub_zero, add_zero, inv_one, one_mul, one_mul]

lemma to_s_one_one {n : ℕ} :
    to_s (1 : Matrix (Fin n) (Fin n) K) (fun _ => (1 : K)) = 0 := by
  rw [to_s]
  have h : (1 : Matrix (Fin n) (Fin n) K) - diagonal (fun _ => (1 : K)) = 0 := by
    rw [Matrix.diagonal_one, sub_self]
  rw [h, zero_mul]

lemma schurOne_one {p : ℕ} (i : Fin (p + 1)) (w : K) :
    schurOne (1 : Matrix (Fin (p + 1)) (Fin (p + 1)) K) i w = 1 := by
  ext r c
  simp only [schurOne, Matrix.of_apply]
  rw [Matrix.one_apply_ne (Fin.succAbove_ne i r), Matrix.one_apply_ne
    (Fin.ne_succAbove i c)]
  have h : (1 : Matrix (Fin (p + 1)) (Fin (p + 1)) K) (i.succAbove r)
      (i.succAbove c) = (1 : Matrix (Fin p) (Fin p) K) r c := by
    by_cases hrc : r = c
    · rw [hrc, Matrix.one_apply_eq, Matrix.one_apply_eq]
    · rw [Matrix.one_apply_ne (fun hc => hrc (Fin.succAbove_right_injective hc)),
        Matrix.one_apply_ne hrc]
  rw [h]
  ring

lemma loadZ_mkLoad (gamma z0m : K) :
    loadZ (mkLoad gamma z0m) = (1 - gamma)⁻¹ * (1 + gamma) * z0m := by
  rw [loadZ, to_z, matInv]
  have hdet : ((1 : Matrix (Fin 1) (Fin 1) K) - (mkLoad gamma z0m).s).det
      = 1 - gamma := by
    rw [Matrix.det_fin_one]
    rfl
  rw [Matrix.adjugate_fin_one, hdet]
  simp only [Matrix.mul_apply, Fin.sum_univ_one, Matrix.smul_apply,
    Matrix.smul_mul, smul_eq_mul]
  have h1 : ((1 : Matrix (Fin 1) (Fin 1) K) 0 0) = 1 := rfl
  have h2 : (((1 : Matrix (Fin 1) (Fin 1) K) + (mkLoad gamma z0m).s) 0 0)
      = 1 + gamma := rfl
  have h3 : (diagonal (mkLoad gamma z0m).z0 0 0) = z0m := by
    rw [Matrix.diagonal_apply_eq]
    rfl
  rw [h1, h2, h3]
  ring

lemma loadZ_matched (z0m : K) : loadZ (mkLoad 0 z0m) = z0m := by
  rw [loadZ_mkLoad, sub_zero, add_zero, inv_one, one_mul, one_mul]

lemma dutW_to_z : to_z dutW.s dutW.z0 = 1 := by
  have hs : dutW.s = 0 := rfl
  have hz : dutW.z0 = fun _ => (1 : ℚ) := rfl
  rw [hs, hz, to_z_zero, Matrix.diagonal_one]

/-- For the zero-scattering device every raw measured 2-port has zero
scattering matrix, whatever loads terminate the complementary ports. -/
lemma twoPort_dutW_s (loads : Fin 4 → Net ℚ (0 + 1)) (c : Fin 4) (e : Fin 3) :
    (twoPort dutW loads c e).s = 0 := by
  have h3 : threePort dutW loads c =
      ⟨to_s (schurOne (to_z dutW.s dutW.z0) c (loadZ (loads c)))
        (fun u => dutW.z0 (c.succAbove u)), fun u => dutW.z0 (c.succAbove u)⟩ :=
    connect_load dutW c (loads c)
  have h3simp : threePort dutW loads c = ⟨0, fun _ => 1⟩ := by
    rw [h3, dutW_to_z, schurOne_one]
    have hz : (fun u : Fin 3 => dutW.z0 (c.succAbove u)) = fun _ => (1 : ℚ) := rfl
    rw [hz, to_s_one_one]
  have h2 : twoPort dutW loads c e =
      ⟨to_s (schurOne (to_z (threePort dutW loads c).s
          (threePort dutW loads c).z0) e (loadZ (loads (c.succAbove e))))
        (fun u => (threePort dutW loads c).z0 (e.succAbove u)),
        fun u => (threePort dutW loads c).z0 (e.succAbove u)⟩ :=
    connect_load (threePort dutW loads c) e (loads (c.succAbove e))
  rw [h2, h3simp]
  show to_s (schurOne (to_z 0 (fun _ => (1:ℚ))) e (loadZ (loads (c.succAbove e))))
    (fun _ => (1:ℚ)) = 0
  rw [to_z_zero, Matrix.diagonal_one, schurOne_one, to_s_one_one]

lemma one_add_diagonal_one {m : ℕ} :
    (1 : Matrix (Fin m) (Fin m) K) + diagonal (fun _ => (1 : K))
      = diagonal (fun _ => (2 : K)) := by
  rw [← Matrix.diagonal_one, Matrix.diagonal_add]
  congr 1
  funext k
  norm_num

lemma validW : ValidSetup dutW loadsW := by
  have hzl : ∀ k : Fin 4, loadZ (loadsW k) = 1 := fun k => loadZ_matched 1
  refine ⟨by norm_num, fun k => one_ne_zero, ?_, ?_, ?_⟩
  · intro k
    rw [hzl k]
    exact one_ne_zero
  · rw [dutW_to_z]
    have hd : (fun k : Fin 4 => loadZ (loadsW k)) = fun _ => (1 : ℚ) :=
      funext hzl
    rw [hd, one_add_diagonal_one, det_diagonal]
    simp [Finset.prod_const, isUnit_iff_ne_zero]
  · intro a b _
    refine ⟨?_, ?_, ?_, ?_⟩
    · rw [dutW_to_z, hzl (cOf a b), Matrix.one_apply_eq]
      norm_num
    · rw [dutW_to_z, hzl (cOf a b), schurOne_one]
      have hz : (fun r : Fin 3 => dutW.z0 ((cOf a b).succAbove r))
          = fun _ => (1 : ℚ) := rfl
      rw [hz, one_add_diagonal_one, det_diagonal]
      simp [Finset.prod_const, isUnit_iff_ne_zero]
    · rw [dutW_to_z, hzl (cOf a b), schurOne_one,
        hzl ((cOf a b).succAbove (eOf a b)), Matrix.one_apply_eq]
      norm_num
    · rw [dutW_to_z, hzl (cOf a b), schurOne_one,
        hzl ((cOf a b).succAbove (eOf a b)), schurOne_one]
      have hz : (fun r : Fin 2 =>
          dutW.z0 ((cOf a b).succAbove ((eOf a b).succAbove r)))
          = fun _ => (1 : ℚ) := rfl
      rw [hz, one_add_diagonal_one, det_diagonal]
      simp [Finset.prod_const, isUnit_iff_ne_zero]

lemma twoPort_z0 (dut : Net K (3 + 1)) (loads : Fin 4 → Net K (0 + 1))
    (c : Fin 4) (e : Fin 3) :
    (twoPort dut loads c e).z0 = fun u => dut.z0 (c.succAbove (e.succAbove u)) := by
  funext u
  have h2 : (twoPort dut loads c e).z0
      = connZ0 (threePort dut loads c) e (loads (c.succAbove e)) 0 := rfl
  rw [h2, connZ0_load]
  have h1 : (threePort dut loads c).z0 = connZ0 dut c (loads c) 0 := rfl
  rw [h1, connZ0_load]

lemma pair_ab_eval : ∀ x : Fin 4 × Fin 4, x.1 < x.2 →
    survivorOrigin (cOf x.1 x.2) (eOf x.1 x.2) 0 = x.1 ∧
    survivorOrigin (cOf x.1 x.2) (eOf x.1 x.2) 1 = x.2 := by
  decide

/-- C1: for a 4-port device and an assignment of one-port loads for which
every intermediate conversion of the Composer is non-singular (as holds for
a random device whenever at most one load is fully reflective), running the
Composer with system impedance 50 yields a composite network whose
scattering matrix equals the device's own scattering matrix referenced at
50, exactly in exact arithmetic — independently of how reflective the loads
are, and independently of the initial composite impedances. -/
theorem composer_end_to_end (dut : Net K 4) (loads : Fin 4 → Net K 1)
    (z0m : Fin 4 → K) (V : ValidSetup dut loads) :
    (composer dut loads z0m 50).s = (renormalize dut (fun _ => (50 : K))).s ∧
    (composer dut loads z0m 50).z0 = fun _ => (50 : K) := by
  constructor
  · rw [composer, renormalize_s, renormalize_s,
      composite_s dut loads z0m V, composite_z0, deviceAtLoads,
      to_z_to_s V.hchar _ _ V.hM V.hzl]
  · rfl

theorem composer_end_to_end_witness :
    ValidSetup dutW loadsW ∧
    ((composer dutW loadsW (fun _ => 1) 50).s
        = (renormalize dutW (fun _ => (50 : ℚ))).s ∧
      (composer dutW loadsW (fun _ => 1) 50).z0 = fun _ => (50 : ℚ)) :=
  ⟨validW, composer_end_to_end dutW loadsW (fun _ => 1) validW⟩

/-- C3: renormalizing a network to its own reference impedances leaves the
scattering matrix unchanged, and renormalizing to another impedance set X
and then back to the original impedances reproduces the original scattering
matrix, exactly, whenever the conversions involved are non-singular. -/
theorem renormalize_identity_round_trip {n : ℕ} (N : Net K n) (X : Fin n → K)
    (hchar : (2 : K) ≠ 0) (hz : ∀ k, N.z0 k ≠ 0) (hX : ∀ k, X k ≠ 0)
    (hS : IsUnit (1 - N.s).det)
    (hXdet : IsUnit (to_z N.s N.z0 + diagonal X).det) :
    (renormalize N N.z0).s = N.s ∧
    (renormalize (renormalize N X) N.z0).s = N.s := by
  constructor
  · rw [renormalize_s, to_s_to_z hchar N.s N.z0 hS hz]
  · rw [renormalize_s, renormalize_s, renormalize_z0,
      to_z_to_s hchar (to_z N.s N.z0) X hXdet hX,
      to_s_to_z hchar N.s N.z0 hS hz]

theorem renormalize_identity_round_trip_witness :
    ((2 : ℚ) ≠ 0) ∧
    ((renormalize (⟨0, fun _ => 1⟩ : Net ℚ 2) (⟨0, fun _ => 1⟩ : Net ℚ 2).z0).s
        = (⟨0, fun _ => 1⟩ : Net ℚ 2).s ∧
      (renormalize (renormalize (⟨0, fun _ => 1⟩ : Net ℚ 2) (fun _ => 2))
          (⟨0, fun _ => 1⟩ : Net ℚ 2).z0).s = (⟨0, fun _ => 1⟩ : Net ℚ 2).s) := by
  refine ⟨by norm_num, renormalize_identity_round_trip _ _ (by norm_num)
    (fun k => one_ne_zero) (fun k => two_ne_zero) ?_ ?_⟩
  · rw [show (⟨0, fun _ => 1⟩ : Net ℚ 2).s = 0 from rfl, sub_zero, det_one]
    exact isUnit_one
  · rw [show (⟨0, fun _ => 1⟩ : Net ℚ 2).s = 0 from rfl,
      show (⟨0, fun _ => 1⟩ : Net ℚ 2).z0 = fun _ => (1 : ℚ) from rfl,
      to_z_zero, Matrix.diagonal_add, det_diagonal]
    norm_num [Finset.prod_const, isUnit_iff_ne_zero]

/-- C4: converting a scattering matrix to the impedance-parameter matrix and
converting back, referenced to the same non-singular per-port impedances,
reproduces the original scattering matrix exactly. -/
theorem s_z_round_trip {n : ℕ} (S : Matrix (Fin n) (Fin n) K)
    (z0 : Fin n → K) (hchar : (2 : K) ≠ 0) (hS : IsUnit (1 - S).det)
    (hz : ∀ k, z0 k ≠ 0) :
    to_s (to_z S z0) z0 = S :=
  to_s_to_z hchar S z0 hS hz

theorem s_z_round_trip_witness :
    ((2 : ℚ) ≠ 0) ∧
    to_s (to_z (0 : Matrix (Fin 2) (Fin 2) ℚ) (fun _ => 1)) (fun _ => 1) = 0 :=
  ⟨by norm_num, s_z_round_trip 0 (fun _ => 1) (by norm_num)
    (by rw [sub_zero, det_one]; exact isUnit_one) (fun k => one_ne_zero)⟩

/-- C5: for a measured pair (a, b), terminating the complementary ports in
ascending order with the source's index lookup leaves a 2-port whose
surviving ports 0 and 1 answer to the original device ports a and b, in
original order; in particular the raw sub-measurement carries the reference
impedances of device ports a and b. -/
theorem pair_port_ordering (dut : Net K (3 + 1))
    (loads : Fin 4 → Net K (0 + 1)) (a b : Fin 4) (u : Fin 2) (hab : a < b) :
    (rawPair dut loads a b).z0 u
        = dut.z0 (survivorOrigin (cOf a b) (eOf a b) u) ∧
      survivorOrigin (cOf a b) (eOf a b) 0 = a ∧
      survivorOrigin (cOf a b) (eOf a b) 1 = b := by
  refine ⟨?_, (pair_ab_eval (a, b) hab).1, (pair_ab_eval (a, b) hab).2⟩
  rw [rawPair, twoPort_z0]
  rfl

theorem pair_port_ordering_witness :
    ((0 : Fin 4) < 1) ∧
    ((rawPair dutW loadsW 0 1).z0 0
        = dutW.z0 (survivorOrigin (cOf 0 1) (eOf 0 1) 0) ∧
      survivorOrigin (cOf 0 1) (eOf 0 1) 0 = 0 ∧
      survivorOrigin (cOf 0 1) (eOf 0 1) 1 = 1) :=
  ⟨by decide, pair_port_ordering dutW loadsW 0 1 0 (by decide)⟩

/-- C6: connecting a (p+1)-port network and a (q+1)-port network at one port
pair yields a network with exactly (p+1)+(q+1)−2 ports. -/
theorem connect_port_count {p q : ℕ} (A : Net K (p + 1)) (i : Fin (p + 1))
    (B : Net K (q + 1)) (j : Fin (q + 1)) :
    (connect A i B j).nports = A.nports + B.nports - 2 := by
  show p + q = (p + 1) + (q + 1) - 2
  omega

/-- C9: after the stuffing loop, each diagonal scattering entry and each
reference-impedance slot of the composite holds the value written by the
lexicographically last pair containing that port — later pairs overwrite the
diagonal and z0 writes of earlier pairs, whatever the per-pair measurements
are. -/
theorem diagonal_last_write (comp0 : Net K 4)
    (meas : Fin 4 → Fin 4 → Net K 2) :
    ((stuffAll comp0 meas).s 0 0 = (meas 0 3).s 0 0 ∧
      (stuffAll comp0 meas).s 1 1 = (meas 1 3).s 0 0 ∧
      (stuffAll comp0 meas).s 2 2 = (meas 2 3).s 0 0 ∧
      (stuffAll comp0 meas).s 3 3 = (meas 2 3).s 1 1) ∧
    ((stuffAll comp0 meas).z0 0 = (meas 0 3).z0 0 ∧
      (stuffAll comp0 meas).z0 1 = (meas 1 3).z0 0 ∧
      (stuffAll comp0 meas).z0 2 = (meas 2 3).z0 0 ∧
      (stuffAll comp0 meas).z0 3 = (meas 2 3).z0 1) :=
  ⟨⟨rfl, rfl, rfl, rfl⟩, ⟨rfl, rfl, rfl, rfl⟩⟩

/-- C10: the tippits simulation builds all four port terminations with the
same reflection coefficient (the comprehension ignores the port index): the
load assigned to every port is the identical wg.load(gamma), so a sweep over
gamma varies every load simultaneously, and the function equals the Composer
run at the constant load assignment — no per-port assignment is expressible
through its interface. -/
theorem tippits_loads_uniform (dut : Net K 4) (z0m gamma : K) (k : Fin 4) :
    (tippitsLoads gamma z0m).getD k.val (mkLoad 0 1) = mkLoad gamma z0m ∧
    tippits dut z0m gamma
      = composer dut (fun _ => mkLoad gamma z0m) (fun _ => z0m) 50 := by
  constructor
  · fin_cases k <;> rfl
  · rw [tippits]
    have h : (fun j : Fin 4 =>
        (tippitsLoads gamma z0m).getD j.val (mkLoad 0 1))
        = fun _ => mkLoad gamma z0m := by
      funext j
      fin_cases j <;> rfl
    rw [h]

/-- C2 (amended): in a noiseless exact simulation, for every port k and every
measured pair containing k, the renormalized sub-measurement of S_kk equals
the device's reflection coefficient referenced at the load impedances — so
the three renormalized measurements of S_kk agree exactly. (The raw
measurements are not in general pairwise distinct: they can coincide, e.g.
for a device without transmission — see the counterexample.) -/
theorem renormalized_selfconsistency (dut : Net K (3 + 1))
    (loads : Fin 4 → Net K (0 + 1)) (V : ValidSetup dut loads)
    (k a b : Fin 4) (hmem : (a, b) ∈ pairList) (hk : a = k ∨ b = k) :
    (measurePair dut loads a b).s (diagPos k a) (diagPos k a)
      = deviceAtLoads dut loads k k := by
  rw [measurePair_s dut loads V a b hmem (diagPos k a) (diagPos k a)]
  by_cases ha : a = k
  · simp only [diagPos, if_pos ha]
    rw [show (![a, b] : Fin 2 → Fin 4) 0 = a from rfl, ha]
  · have hb : b = k := hk.resolve_left ha
    simp only [diagPos, if_neg ha]
    rw [show (![a, b] : Fin 2 → Fin 4) 1 = b from rfl, hb]

theorem renormalized_selfconsistency_witness :
    ValidSetup dutW loadsW ∧ ((0, 1) ∈ pairList) ∧
    ((0 : Fin 4) = 0 ∨ (1 : Fin 4) = 0) ∧
    (measurePair dutW loadsW 0 1).s (diagPos 0 0) (diagPos 0 0)
      = deviceAtLoads dutW loadsW 0 0 :=
  ⟨validW, by decide, Or.inl rfl,
    renormalized_selfconsistency dutW loadsW validW 0 0 1 (by decide)
      (Or.inl rfl)⟩

/-- C2 counterexample: for the zero-transmission device measured with the
four distinct loads of reflection coefficients .1, .2, .3, .5, the three raw
(non-renormalized) sub-measurements of S_00 all coincide (each equals 0),
contradicting the claim that the raw measurements of a reflection
coefficient disagree with each other in every noiseless simulation. -/
theorem raw_measurements_can_agree :
    (rawPair dutW loadsC 0 1).s 0 0 = (rawPair dutW loadsC 0 2).s 0 0 ∧
    (rawPair dutW loadsC 0 2).s 0 0 = (rawPair dutW loadsC 0 3).s 0 0 ∧
    (rawPair dutW loadsC 0 1).s 0 0 = 0 := by
  have h1 : (rawPair dutW loadsC 0 1).s = 0 :=
    twoPort_dutW_s loadsC (cOf 0 1) (eOf 0 1)
  have h2 : (rawPair dutW loadsC 0 2).s = 0 :=
    twoPort_dutW_s loadsC (cOf 0 2) (eOf 0 2)
  have h3 : (rawPair dutW loadsC 0 3).s = 0 :=
    twoPort_dutW_s loadsC (cOf 0 3) (eOf 0 3)
  refine ⟨?_, ?_, ?_⟩
  · rw [h1, h2]
  · rw [h2, h3]
  · rw [h1]
    rfl

/-- C7 (amended): processing one pair writes only its four scattering cells
and two z0 slots, leaving every other composite cell unchanged (frame
property); for two distinct measured pairs the off-diagonal written cells
are disjoint, but the diagonal cells and z0 slots of pairs sharing a port
alias the same accumulator locations (see the counterexample). -/
theorem writeBlock_frame (comp : Net K 4) (a b : Fin 4) (tp : Net K 2)
    (m n k : Fin 4) (x y : Fin 4)
    (hmn : (m, n) ∉ writeCellsS a b) (hk : k ∉ writeCellsZ a b)
    (hp1 : (a, b) ∈ pairList) (hp2 : (x, y) ∈ pairList)
    (hne : (a, b) ≠ (x, y)) :
    (writeBlock comp a b tp).s m n = comp.s m n ∧
    (writeBlock comp a b tp).z0 k = comp.z0 k ∧
    Disjoint (offDiagCells a b) (offDiagCells x y) := by
  refine ⟨?_, ?_, ?_⟩
  · simp only [writeCellsS, Finset.mem_insert, Finset.mem_singleton,
      Prod.mk.injEq, not_or] at hmn
    obtain ⟨h1, h2, h3, h4⟩ := hmn
    show (Matrix.of _) m n = comp.s m n
    simp only [Matrix.of_apply]
    rw [if_neg h1, if_neg h2, if_neg h3, if_neg h4]
  · simp only [writeCellsZ, Finset.mem_insert, Finset.mem_singleton,
      not_or] at hk
    obtain ⟨h1, h2⟩ := hk
    show (if k = a then tp.z0 0 else if k = b then tp.z0 1 else comp.z0 k)
      = comp.z0 k
    rw [if_neg h1, if_neg h2]
  · have hd : ∀ u v : Fin 4 × Fin 4, u ∈ pairList → v ∈ pairList → u ≠ v →
        Disjoint (offDiagCells u.1 u.2) (offDiagCells v.1 v.2) := by decide
    exact hd (a, b) (x, y) hp1 hp2 hne

/-- C7 counterexample: the write cells of pairs (0,1) and (0,2) are not
disjoint — both contain the scattering cell (0,0) and the z0 slot 0 — and
processing pair (0,2) after pair (0,1) really replaces the value pair (0,1)
wrote at (0,0). -/
theorem pair_writes_alias :
    ¬ Disjoint (writeCellsS 0 1) (writeCellsS 0 2) ∧
    ¬ Disjoint (writeCellsZ 0 1) (writeCellsZ 0 2) ∧
    (writeBlock (writeBlock (matchNet fun _ => (1 : ℚ)) 0 1 tpW1) 0 2
      tpW2).s 0 0 = 7 ∧
    (writeBlock (matchNet fun _ => (1 : ℚ)) 0 1 tpW1).s 0 0 = 5 :=
  ⟨by decide, by decide, rfl, rfl⟩

theorem writeBlock_frame_witness :
    (((3 : Fin 4), (3 : Fin 4)) ∉ writeCellsS 0 1) ∧
    ((3 : Fin 4) ∉ writeCellsZ 0 1) ∧
    ((0, 1) ∈ pairList) ∧ ((2, 3) ∈ pairList) ∧
    (((0 : Fin 4), (1 : Fin 4)) ≠ ((2 : Fin 4), (3 : Fin 4))) ∧
    ((writeBlock (matchNet fun _ => (1 : ℚ)) 0 1 tpW1).s 3 3
        = (matchNet fun _ => (1 : ℚ)).s 3 3 ∧
      (writeBlock (matchNet fun _ => (1 : ℚ)) 0 1 tpW1).z0 3
        = (matchNet fun _ => (1 : ℚ)).z0 3 ∧
      Disjoint (offDiagCells 0 1) (offDiagCells 2 3)) :=
  ⟨by decide, by decide, by decide, by decide, by decide,
    writeBlock_frame (matchNet fun _ => (1 : ℚ)) 0 1 tpW1 3 3 3 2 3
      (by decide) (by decide) (by decide) (by decide) (by decide)⟩

lemma collectE_ok_all {α ε β : Type} (g : α → Except ε β) :
    ∀ (l : List α) (res : List β), collectE g l = Except.ok res →
      ∀ a ∈ l, ∃ b, g a = Except.ok b := by
  intro l
  induction l with
  | nil =>
    intro res _ a ha
    exact absurd ha (List.not_mem_nil a)
  | cons hd tl ih =>
    intro res hres a ha
    cases hg : g hd with
    | error e =>
      rw [collectE, hg] at hres
      exact Except.noConfusion hres
    | ok b =>
      rcases List.mem_cons.1 ha with h | h
      · exact ⟨b, h ▸ hg⟩
      · rw [collectE, hg] at hres
        cases hrest : collectE g tl with
        | error e2 =>
          rw [hrest] at hres
          exact Except.noConfusion hres
        | ok rest =>
          obtain ⟨b2, hb2⟩ := ih rest hrest a h
          exact ⟨b2, hb2⟩

lemma collectE_error_mem {α ε β : Type} (g : α → Except ε β) :
    ∀ (l : List α) (err : ε), collectE g l = Except.error err →
      ∃ a, a ∈ l ∧ g a = Except.error err := by
  intro l
  induction l with
  | nil =>
    intro err h
    exact Except.noConfusion h
  | cons hd tl ih =>
    intro err h
    cases hg : g hd with
    | error e =>
      rw [collectE, hg] at h
      injection h with h2
      exact ⟨hd, List.mem_cons_self hd tl, by rw [hg, h2]⟩
    | ok b =>
      rw [collectE, hg] at h
      cases hrest : collectE g tl with
      | error e2 =>
        rw [hrest] at h
        injection h with h2
        obtain ⟨a, ha, hga⟩ := ih e2 hrest
        exact ⟨a, List.mem_cons_of_mem hd ha, by rw [hga, h2]⟩
      | ok rest =>
        rw [hrest] at h
        exact Except.noConfusion h

/-- C8: the Connector fails with the dedicated DomainError when the two
operands have mismatched frequency grids or when a designated port index is
out of range (either side); a failing sub-measurement means the Composer
returns exactly that error — the error comes from some pair, it propagates
to the caller, and no partial composite is ever returned: the call either
yields the full list of sub-measurements or fails as a whole. -/
theorem connector_errors_propagate (A1 B1 : NetF K) (i1 j1 : ℕ)
    (A2 B2 : NetF K) (i2 j2 : ℕ) (A3 B3 : NetF K) (i3 j3 : ℕ)
    (dut : NetF K) (loadsF : Fin 4 → NetF K) (err : DomainError)
    (h1 : A1.freq ≠ B1.freq)
    (h2f : A2.freq = B2.freq) (h2r : A2.p ≤ i2)
    (h3f : A3.freq = B3.freq) (h3r : B3.p ≤ j3)
    (herr : composerE dut loadsF = Except.error err) :
    connectE A1 i1 B1 j1 = Except.error DomainError.freqMismatch ∧
    connectE A2 i2 B2 j2 = Except.error DomainError.portOutOfRange ∧
    connectE A3 i3 B3 j3 = Except.error DomainError.portOutOfRange ∧
    (∃ ab, ab ∈ pairList ∧
      measurePairE dut loadsF ab.1 ab.2 = Except.error err) ∧
    ∀ res, composerE dut loadsF ≠ Except.ok res := by
  refine ⟨?_, ?_, ?_, ?_, ?_⟩
  · rw [connectE, if_pos h1]
  · rcases A2 with ⟨p2, f2, b2⟩
    rcases B2 with ⟨q2, g2, c2⟩
    simp only at h2f h2r
    cases p2 with
    | zero => simp [connectE, connectP, h2f]
    | succ p2 =>
      cases q2 with
      | zero => simp [connectE, connectP, h2f]
      | succ q2 =>
        have hni : ¬ (i2 < p2 + 1) := by omega
        simp [connectE, connectP, h2f, hni]
  · rcases A3 with ⟨p3, f3, b3⟩
    rcases B3 with ⟨q3, g3, c3⟩
    simp only at h3f h3r
    cases p3 with
    | zero => simp [connectE, connectP, h3f]
    | succ p3 =>
      cases q3 with
      | zero => simp [connectE, connectP, h3f]
      | succ q3 =>
        have hnj : ¬ (j3 < q3 + 1) := by omega
        by_cases hi3 : i3 < p3 + 1
        · simp [connectE, connectP, h3f, hi3, hnj]
        · simp [connectE, connectP, h3f, hi3]
  · exact collectE_error_mem _ pairList err herr
  · intro res hok
    rw [composerE] at herr hok
    rw [herr] at hok
    exact Except.noConfusion hok

theorem connector_errors_propagate_witness :
    (mismA.freq ≠ mismB.freq) ∧ (dutE.p ≤ 0) ∧
    (composerE dutE loadsE = Except.error DomainError.portOutOfRange) ∧
    (connectE mismA 0 mismB 0 = Except.error DomainError.freqMismatch ∧
      connectE dutE 0 dutE 0 = Except.error DomainError.portOutOfRange ∧
      connectE dutE 0 dutE 0 = Except.error DomainError.portOutOfRange ∧
      (∃ ab, ab ∈ pairList ∧ measurePairE dutE loadsE ab.1 ab.2
        = Except.error DomainError.portOutOfRange) ∧
      ∀ res, composerE dutE loadsE ≠ Except.ok res) :=
  ⟨by decide, by decide, rfl,
    connector_errors_propagate mismA mismB 0 0 dutE dutE 0 0 dutE dutE 0 0
      dutE loadsE DomainError.portOutOfRange (by decide) rfl (by decide)
      rfl (by decide) rfl⟩

/-- On every measured pair, the port found at position `e` of the 3-port is
the original complementary port `d`: the load the second termination uses is
the load assigned to `d`, as in the source. -/
lemma dOf_eval : ∀ x : Fin 4 × Fin 4, x ∈ pairList →
    (cOf x.1 x.2).succAbove (eOf x.1 x.2) = dOf x.1 x.2 := by
  decide
